import Mathlib

/-!
Verification of the stream-compaction (`copy_if`) and block-copy primitives of
the thrust CUDA backend.

The development shallowly embeds:
* `src/thrust/detail/backend/cuda/copy_if.inl` — the two-pass copy-if
  (per-group reduction of predicate flags, global inclusive scan of the
  per-group counts, then a scatter kernel `copy_if_intervals_closure` that
  processes each group's interval in chunks of `CTA_SIZE` lanes);
* `src/thrust/detail/backend/cuda/block/copy.h` — `trivial_copy` (wide-word
  aligned byte copy with byte fallback), `trivial_copy_detail::aligned_copy`
  (lane-strided elementwise copy), `quotient_and_remainder`, and the two
  `detail::dispatch::copy` paths;
* `src/thrust/range/end.h` — the `end` overloads.

Memories are modelled as total functions from `Nat` addresses; the output of
copy-if is `Nat → Option α` so untouched cells are observable.  Concurrent
lanes and groups only ever write disjoint locations, so they are serialized
in lane order / group order; the proofs establish the disjoint coverage that
justifies this.
-/

variable {α : Type} {β : Type} {V : Type}

/-- Inclusive prefix sum under `Nat` addition.  Models the contract of both
external scans used by `copy_if`: the in-group
`cuda::block::inplace_inclusive_scan` and the global `thrust::inclusive_scan`
(spec §2, §6: both are external primitives whose contract is an inclusive
prefix sum under addition). -/
def inclusiveScan : List Nat → List Nat
  | [] => []
  | a :: l => a :: (inclusiveScan l).map (a + ·)

/-- Attach consecutive output positions starting at `b` to a list of values. -/
def indexedFrom (b : Nat) : List α → List (Nat × α)
  | [] => []
  | v :: vs => (b, v) :: indexedFrom (b + 1) vs

/-- Apply a list of (position, value) writes to an output array, in order. -/
def applyWrites (out : Nat → Option α) : List (Nat × α) → (Nat → Option α)
  | [] => out
  | (p, v) :: ws => applyWrites (fun j => if j = p then some v else out j) ws

/-- The write phase of one chunk of `copy_if_intervals_closure::operator()`
(copy_if.inl lines 122-126 and 154-158): lane `t` holds predicate flag
`flags[t]` and post-scan shared value `sdata[t]`; if its flag is nonzero it
writes its input element to `output + (sdata[t] - 1)`, where `output` has
already been advanced to `outBase`. -/
def chunkWrites (flags : List Nat) (vals : List α) (sdata : List Nat) (outBase : Nat) :
    List (Nat × α) :=
  match flags, vals, sdata with
  | f :: fs, v :: vs, s :: ss =>
      (if f ≠ 0 then [(outBase + (s - 1), v)] else []) ++ chunkWrites fs vs ss outBase
  | _, _, _ => []

/-- The values whose predicate flag is nonzero, in order. -/
def selectFlags : List Nat → List α → List α
  | f :: fs, v :: vs => (if f ≠ 0 then [v] else []) ++ selectFlags fs vs
  | _, _ => []

theorem map_zero_add (l : List Nat) : l.map (0 + ·) = l := by
  simp

theorem inclusiveScan_length (l : List Nat) : (inclusiveScan l).length = l.length := by
  induction l with
  | nil => rfl
  | cons a l ih => simp [inclusiveScan, ih]

theorem inclusiveScan_getLast (l : List Nat) (h : l ≠ []) :
    (inclusiveScan l)[l.length - 1]? = some l.sum := by
  induction l with
  | nil => simp at h
  | cons a l ih =>
    cases l with
    | nil => simp [inclusiveScan]
    | cons b t =>
      have hix := ih (by simp)
      show (a :: (inclusiveScan (b :: t)).map (a + ·))[(a :: b :: t).length - 1]? = _
      have hlen : (a :: b :: t).length - 1 = ((b :: t).length - 1) + 1 := by simp
      rw [hlen, List.getElem?_cons, if_neg (by omega)]
      have h2 : (b :: t).length - 1 + 1 - 1 = (b :: t).length - 1 := by omega
      rw [h2, List.getElem?_map, hix]
      simp [Nat.add_assoc]

theorem inclusiveScan_getD_last (l : List Nat) (h : l ≠ []) :
    (inclusiveScan l).getD (l.length - 1) 0 = l.sum := by
  rw [List.getD_eq_getElem?_getD, inclusiveScan_getLast l h]
  rfl

theorem inclusiveScan_append (l1 l2 : List Nat) :
    inclusiveScan (l1 ++ l2) = inclusiveScan l1 ++ (inclusiveScan l2).map (l1.sum + ·) := by
  induction l1 with
  | nil => simp [inclusiveScan, map_zero_add]
  | cons a l ih =>
    show a :: (inclusiveScan (l ++ l2)).map (a + ·)
        = (a :: (inclusiveScan l).map (a + ·)) ++ (inclusiveScan l2).map ((a :: l).sum + ·)
    rw [ih, List.map_append, List.map_map, List.cons_append]
    have hfun : ((a + ·) ∘ (l.sum + ·)) = ((a :: l).sum + ·) := by
      funext s
      simp [Function.comp, List.sum_cons, Nat.add_assoc]
    rw [hfun]

theorem applyWrites_append (out : Nat → Option α) (ws1 ws2 : List (Nat × α)) :
    applyWrites out (ws1 ++ ws2) = applyWrites (applyWrites out ws1) ws2 := by
  induction ws1 generalizing out with
  | nil => rfl
  | cons w ws ih =>
    cases w
    simp [applyWrites, ih]

theorem indexedFrom_append (b : Nat) (l1 l2 : List α) :
    indexedFrom b (l1 ++ l2) = indexedFrom b l1 ++ indexedFrom (b + l1.length) l2 := by
  induction l1 generalizing b with
  | nil => simp [indexedFrom]
  | cons v vs ih =>
    show (b, v) :: indexedFrom (b + 1) (vs ++ l2)
        = ((b, v) :: indexedFrom (b + 1) vs) ++ indexedFrom (b + (v :: vs).length) l2
    rw [ih, List.cons_append]
    have h1 : b + 1 + vs.length = b + (v :: vs).length := by
      simp only [List.length_cons]
      omega
    rw [h1]

theorem applyWrites_indexedFrom (out : Nat → Option α) (b : Nat) (l : List α) (j : Nat) :
    applyWrites out (indexedFrom b l) j
      = if b ≤ j ∧ j < b + l.length then l[j - b]? else out j := by
  induction l generalizing b out with
  | nil =>
    simp only [indexedFrom, applyWrites, List.length_nil, Nat.add_zero]
    have : ¬(b ≤ j ∧ j < b) := by omega
    rw [if_neg this]
  | cons v vs ih =>
    simp only [indexedFrom, applyWrites]
    rw [ih]
    by_cases hj : j = b
    · have h1 : ¬(b + 1 ≤ j ∧ j < b + 1 + vs.length) := by omega
      rw [if_neg h1, if_pos hj]
      have h2 : b ≤ j ∧ j < b + (v :: vs).length := by
        simp only [List.length_cons]
        omega
      rw [if_pos h2]
      have h3 : j - b = 0 := by omega
      rw [h3]
      simp
    · by_cases hin : b + 1 ≤ j ∧ j < b + 1 + vs.length
      · rw [if_pos hin]
        have h2 : b ≤ j ∧ j < b + (v :: vs).length := by
          simp only [List.length_cons]
          omega
        rw [if_pos h2]
        rw [List.getElem?_cons]
        have h0 : j - b ≠ 0 := by omega
        rw [if_neg h0]
        have : j - b - 1 = j - (b + 1) := by omega
        rw [this]
      · rw [if_neg hin, if_neg hj]
        have h2 : ¬(b ≤ j ∧ j < b + (v :: vs).length) := by
          simp only [List.length_cons]
          omega
        rw [if_neg h2]

theorem chunkWrites_inclusiveScan (flags : List Nat) (vals : List α) (c outBase : Nat)
    (h01 : ∀ f ∈ flags, f ≤ 1) (hlen : vals.length = flags.length) :
    chunkWrites flags vals ((inclusiveScan flags).map (c + ·)) outBase
      = indexedFrom (outBase + c) (selectFlags flags vals) := by
  induction flags generalizing vals c with
  | nil =>
    cases vals with
    | nil => rfl
    | cons v vs => simp at hlen
  | cons f fs ih =>
    cases vals with
    | nil => simp at hlen
    | cons v vs =>
      have hf : f = 0 ∨ f = 1 := by
        have := h01 f (by simp)
        omega
      have h01b : ∀ g ∈ fs, g ≤ 1 := fun g hg => h01 g (by simp [hg])
      have hlen2 : vs.length = fs.length := by
        simp only [List.length_cons] at hlen
        omega
      rcases hf with hf | hf
      · subst hf
        show (if (0:Nat) ≠ 0 then [(outBase + ((c + 0) - 1), v)] else [])
              ++ chunkWrites fs vs (((inclusiveScan fs).map ((0:Nat) + ·)).map (c + ·)) outBase
            = indexedFrom (outBase + c)
                ((if (0:Nat) ≠ 0 then [v] else []) ++ selectFlags fs vs)
        rw [map_zero_add, if_neg (by simp), if_neg (by simp), ih vs c h01b hlen2]
        simp
      · subst hf
        show (if (1:Nat) ≠ 0 then [(outBase + ((c + 1) - 1), v)] else [])
              ++ chunkWrites fs vs (((inclusiveScan fs).map ((1:Nat) + ·)).map (c + ·)) outBase
            = indexedFrom (outBase + c)
                ((if (1:Nat) ≠ 0 then [v] else []) ++ selectFlags fs vs)
        rw [if_pos (by simp), if_pos (by simp), List.map_map]
        have hcomp : ((c + ·) ∘ ((1:Nat) + ·)) = ((c + 1) + ·) := by
          funext s
          simp [Function.comp, Nat.add_assoc]
        rw [hcomp, ih vs (c + 1) h01b hlen2]
        show (outBase + (c + 1 - 1), v) :: indexedFrom (outBase + (c + 1)) (selectFlags fs vs)
            = (outBase + c, v) :: indexedFrom (outBase + c + 1) (selectFlags fs vs)
        rw [Nat.add_assoc]
        rfl

theorem chunkWrites_scan (flags : List Nat) (vals : List α) (outBase : Nat)
    (h01 : ∀ f ∈ flags, f ≤ 1) (hlen : vals.length = flags.length) :
    chunkWrites flags vals (inclusiveScan flags) outBase
      = indexedFrom outBase (selectFlags flags vals) := by
  have h := chunkWrites_inclusiveScan flags vals 0 outBase h01 hlen
  rw [map_zero_add] at h
  simpa using h

theorem selectFlags_map (ps : List Nat) (flagF : Nat → Nat) (input : Nat → α) :
    selectFlags (ps.map flagF) (ps.map input)
      = (ps.filter (fun p => flagF p != 0)).map input := by
  induction ps with
  | nil => rfl
  | cons p ps ih =>
    show (if flagF p ≠ 0 then [input p] else []) ++ selectFlags (ps.map flagF) (ps.map input)
        = ((p :: ps).filter (fun p => flagF p != 0)).map input
    rw [ih, List.filter_cons]
    by_cases h : flagF p = 0
    · rw [if_neg (by simp [h]), if_neg (by simp [h])]
      simp
    · rw [if_pos h, if_pos (by simp [h])]
      simp

theorem filter_length_eq_sum (ps : List Nat) (flagF : Nat → Nat) (h01 : ∀ p, flagF p ≤ 1) :
    (ps.filter (fun p => flagF p != 0)).length = (ps.map flagF).sum := by
  induction ps with
  | nil => rfl
  | cons p ps ih =>
    rw [List.filter_cons, List.map_cons, List.sum_cons]
    by_cases h : flagF p = 0
    · rw [if_neg (by simp [h]), ih, h, Nat.zero_add]
    · have h1 : flagF p = 1 := by
        have := h01 p
        omega
      rw [if_pos (by simp [h]), h1]
      simp only [List.length_cons, ih]
      omega

/-- One group's scatter work, `copy_if_intervals_closure::operator()`
(copy_if.inl lines 77-160), on its interval `[base, e)` with the output
iterator already advanced to `outBase`.  The while loop (lines 111-137)
processes full chunks of `ctaSize` lanes: lane `t` stores its 0/1 stencil
flag at position `base + t` into shared memory, the group's inclusive scan
runs over the flags, each flagged lane writes its input element to
`output + (sdata[t] - 1)`, and the output cursor advances by the chunk's
true-count `sdata[ctaSize - 1]`.  A final short chunk (lines 140-159) is
processed once, with every lane whose position is at or beyond `e`
contributing flag 0.  Lanes write pairwise-disjoint output cells, so the
per-lane writes are serialized in lane order by `chunkWrites`/`applyWrites`.
In the source `ctaSize` is the launch constant
`Context::ThreadsPerBlock::value` (positive, 256 in `copy_if`); for a
degenerate zero lane count this model falls through to the short-chunk
branch, where the source's loop would not terminate. -/
def closureRun (ctaSize : Nat) (flagAt : Nat → Nat) (input : Nat → α)
    (base e outBase : Nat) (out : Nat → Option α) : Nat → Option α :=
  if h : 0 < ctaSize ∧ base + ctaSize ≤ e then
    closureRun ctaSize flagAt input (base + ctaSize) e
      (outBase + (inclusiveScan ((List.range' base ctaSize).map flagAt)).getD (ctaSize - 1) 0)
      (applyWrites out (chunkWrites ((List.range' base ctaSize).map flagAt)
        ((List.range' base ctaSize).map input)
        (inclusiveScan ((List.range' base ctaSize).map flagAt)) outBase))
  else if base < e then
    applyWrites out (chunkWrites
      ((List.range' base ctaSize).map (fun p => if p < e then flagAt p else 0))
      ((List.range' base ctaSize).map input)
      (inclusiveScan ((List.range' base ctaSize).map (fun p => if p < e then flagAt p else 0)))
      outBase)
  else out
termination_by e - base
decreasing_by omega

theorem closureRun_eq (ctaSize : Nat) (flagAt : Nat → Nat) (input : Nat → α)
    (hcta : 0 < ctaSize) (h01 : ∀ p, flagAt p ≤ 1) (base e outBase : Nat)
    (out : Nat → Option α) :
    closureRun ctaSize flagAt input base e outBase out
      = applyWrites out (indexedFrom outBase
          (((List.range' base (e - base)).filter (fun p => flagAt p != 0)).map input)) := by
  by_cases hfull : 0 < ctaSize ∧ base + ctaSize ≤ e
  · rw [closureRun, dif_pos hfull]
    have hflags01 : ∀ f ∈ (List.range' base ctaSize).map flagAt, f ≤ 1 := by
      intro f hf
      obtain ⟨p, _, rfl⟩ := List.mem_map.mp hf
      exact h01 p
    have hlen : ((List.range' base ctaSize).map input).length
        = ((List.range' base ctaSize).map flagAt).length := by
      simp
    rw [chunkWrites_scan _ _ _ hflags01 hlen, selectFlags_map]
    have hlen2 : ((List.range' base ctaSize).map flagAt).length = ctaSize := by
      simp
    have hne : (List.range' base ctaSize).map flagAt ≠ [] := by
      intro hx
      rw [hx] at hlen2
      simp only [List.length_nil] at hlen2
      omega
    have hadv : (inclusiveScan ((List.range' base ctaSize).map flagAt)).getD (ctaSize - 1) 0
        = ((List.range' base ctaSize).filter (fun p => flagAt p != 0)).length := by
      have h2 := inclusiveScan_getD_last _ hne
      rw [hlen2] at h2
      rw [h2, ← filter_length_eq_sum _ _ h01]
    rw [hadv]
    rw [closureRun_eq ctaSize flagAt input hcta h01 (base + ctaSize) e _ _]
    have hsplit : e - base = ctaSize + (e - (base + ctaSize)) := by omega
    rw [hsplit, Nat.add_comm ctaSize (e - (base + ctaSize)), ← List.range'_append_1,
        List.filter_append, List.map_append, indexedFrom_append, applyWrites_append]
    rw [List.length_map]
  · rw [closureRun, dif_neg hfull]
    by_cases hb : base < e
    · rw [if_pos hb]
      have hclamp01 : ∀ f ∈ (List.range' base ctaSize).map
          (fun p => if p < e then flagAt p else 0), f ≤ 1 := by
        intro f hf
        obtain ⟨p, _, rfl⟩ := List.mem_map.mp hf
        by_cases hp : p < e
        · rw [if_pos hp]
          exact h01 p
        · rw [if_neg hp]
          omega
      have hlen : ((List.range' base ctaSize).map input).length
          = ((List.range' base ctaSize).map
              (fun p => if p < e then flagAt p else 0)).length := by
        simp
      rw [chunkWrites_scan _ _ _ hclamp01 hlen, selectFlags_map]
      have hsplit2 : List.range' base ctaSize
          = List.range' base (e - base) ++ List.range' e (ctaSize - (e - base)) := by
        have h1 := List.range'_append_1 base (e - base) (ctaSize - (e - base))
        rw [show base + (e - base) = e by omega] at h1
        rw [show ctaSize - (e - base) + (e - base) = ctaSize by omega] at h1
        exact h1.symm
      rw [hsplit2, List.filter_append]
      have hnil : (List.range' e (ctaSize - (e - base))).filter
          (fun p => (if p < e then flagAt p else 0) != 0) = [] := by
        rw [List.filter_eq_nil_iff]
        intro p hp
        have hpe : e ≤ p := (List.mem_range'_1.mp hp).1
        rw [if_neg (by omega : ¬ p < e)]
        simp
      have hcong : (List.range' base (e - base)).filter
            (fun p => (if p < e then flagAt p else 0) != 0)
          = (List.range' base (e - base)).filter (fun p => flagAt p != 0) := by
        apply List.filter_congr
        intro p hp
        have hpr := List.mem_range'_1.mp hp
        rw [if_pos (by omega : p < e)]
      rw [hnil, List.append_nil, hcong]
    · rw [if_neg hb]
      have h0 : e - base = 0 := by omega
      rw [h0]
      rfl
termination_by e - base
decreasing_by omega

/-- The 0/1 integral flag of a stencil position, `predicate_to_integral`
applied through the `transform_iterator` `predicate_stencil`
(copy_if.inl lines 189-193): the value is 1 where the predicate holds on the
stencil and 0 elsewhere. -/
def predFlag (stencil : Nat → β) (pred : β → Bool) : Nat → Nat :=
  fun p => if pred (stencil p) then 1 else 0

/-- Modelled from the spec: the per-interval flag reduction
`thrust::detail::backend::internal::reduce_intervals` (copy_if.inl line 196)
together with the decomposition
`default_decomposition`/`uniform_decomposition` (line 184) are external to
the three sources; spec §6 specifies the reduction as "given a sequence of
0/1 flags and a Decomposition, produces one summed count per interval", and
spec §3 requires the decomposition's intervals to be contiguous, disjoint and
to cover `[0, N)`.  The decomposition is therefore represented by the list of
its interval lengths `sizes` (interval `g` is
`[start_g, start_g + sizes[g])` with `start_g` the sum of the earlier
lengths), which realizes the coverage invariant by construction, and the
count of interval `g` is the sum of the flags over that interval. -/
def intervalCounts (flagAt : Nat → Nat) (start : Nat) : List Nat → List Nat
  | [] => []
  | sz :: rest =>
      ((List.range' start sz).map flagAt).sum :: intervalCounts flagAt (start + sz) rest

/-- The output base offset of one group in the scatter pass
(copy_if.inl lines 104-108): the offsets lookup is skipped for group 0, and
every other group `g` advances its output iterator by `offsets[g - 1]`. -/
def groupOutputBase (offsets : List Nat) (g : Nat) : Nat :=
  if g = 0 then 0 else offsets.getD (g - 1) 0

/-- The launch of one `copy_if_intervals_closure` per decomposition interval
(copy_if.inl lines 202-207): group `g` scatters its interval
`[start_g, start_g + sizes[g])` starting at its output base offset.  Groups
write pairwise-disjoint output regions, so the concurrent launch is
serialized in group order. -/
def runGroups (ctaSize : Nat) (flagAt : Nat → Nat) (input : Nat → α) (offsets : List Nat) :
    List Nat → Nat → Nat → (Nat → Option α) → (Nat → Option α)
  | [], _, _, out => out
  | sz :: rest, g, start, out =>
      runGroups ctaSize flagAt input offsets rest (g + 1) (start + sz)
        (closureRun ctaSize flagAt input start (start + sz) (groupOutputBase offsets g) out)

/-- `copy_if` (copy_if.inl lines 164-210).  An empty range returns `output`
at once (line 178-179).  Otherwise the stencil is turned into 0/1 flags, the
per-interval flag counts are reduced (line 196), scanned in place into
per-group offsets (line 199), the scatter closure is launched once per group
(line 207), and the function returns `output` advanced by the scanned value
of the last group (line 209).  The returned pair is the final output array
and the offset of the returned iterator from `output`.  `sizes` is the
external decomposition's interval-length list and `ctaSize` the per-group
lane count (`ThreadsPerBlock`, 256 in the source). -/
def copy_if (n : Nat) (input : Nat → α) (stencil : Nat → β) (pred : β → Bool)
    (sizes : List Nat) (ctaSize : Nat) (out : Nat → Option α) : (Nat → Option α) × Nat :=
  if n = 0 then (out, 0)
  else
    (runGroups ctaSize (predFlag stencil pred) input
        (inclusiveScan (intervalCounts (predFlag stencil pred) 0 sizes)) sizes 0 0 out,
      (inclusiveScan (intervalCounts (predFlag stencil pred) 0 sizes)).getD
        (sizes.length - 1) 0)

/-- The predicate-satisfying subsequence of the input, in original order:
the reference behaviour the spec ascribes to stream compaction. -/
def selectedList (n : Nat) (input : Nat → α) (stencil : Nat → β) (pred : β → Bool) :
    List α :=
  ((List.range n).filter (fun p => pred (stencil p))).map input

theorem predFlag_le_one (stencil : Nat → β) (pred : β → Bool) (p : Nat) :
    predFlag stencil pred p ≤ 1 := by
  unfold predFlag
  by_cases h : pred (stencil p) <;> simp [h]

theorem predFlag_bne (stencil : Nat → β) (pred : β → Bool) (p : Nat) :
    (predFlag stencil pred p != 0) = pred (stencil p) := by
  unfold predFlag
  by_cases h : pred (stencil p) <;> simp [h]

theorem intervalCounts_length (flagAt : Nat → Nat) (start : Nat) (sizes : List Nat) :
    (intervalCounts flagAt start sizes).length = sizes.length := by
  induction sizes generalizing start with
  | nil => rfl
  | cons sz rest ih => simp [intervalCounts, ih]

theorem intervalCounts_append (flagAt : Nat → Nat) (start : Nat) (a b : List Nat) :
    intervalCounts flagAt start (a ++ b)
      = intervalCounts flagAt start a ++ intervalCounts flagAt (start + a.sum) b := by
  induction a generalizing start with
  | nil => simp [intervalCounts]
  | cons sz rest ih =>
    show ((List.range' start sz).map flagAt).sum :: intervalCounts flagAt (start + sz) (rest ++ b)
        = (((List.range' start sz).map flagAt).sum :: intervalCounts flagAt (start + sz) rest)
            ++ intervalCounts flagAt (start + (sz :: rest).sum) b
    rw [ih, List.cons_append]
    have h1 : start + sz + rest.sum = start + (sz :: rest).sum := by
      rw [List.sum_cons]
      omega
    rw [h1]

theorem intervalCounts_sum (flagAt : Nat → Nat) (start : Nat) (sizes : List Nat) :
    (intervalCounts flagAt start sizes).sum
      = ((List.range' start sizes.sum).map flagAt).sum := by
  induction sizes generalizing start with
  | nil => rfl
  | cons sz rest ih =>
    show ((List.range' start sz).map flagAt).sum + (intervalCounts flagAt (start + sz) rest).sum
        = ((List.range' start (sz :: rest).sum).map flagAt).sum
    rw [ih]
    have hsplit : List.range' start (sz :: rest).sum
        = List.range' start sz ++ List.range' (start + sz) rest.sum := by
      rw [List.sum_cons, Nat.add_comm sz rest.sum]
      exact (List.range'_append_1 start sz rest.sum).symm
    rw [hsplit, List.map_append, List.sum_append]

theorem offsetsPrefix_getD (flagAt : Nat → Nat) (h01 : ∀ p, flagAt p ≤ 1)
    (done rest : List Nat) (hne : done ≠ []) :
    (inclusiveScan (intervalCounts flagAt 0 (done ++ rest))).getD (done.length - 1) 0
      = ((List.range' 0 done.sum).filter (fun p => flagAt p != 0)).length := by
  rw [intervalCounts_append, inclusiveScan_append]
  have hlen : (inclusiveScan (intervalCounts flagAt 0 done)).length = done.length := by
    rw [inclusiveScan_length, intervalCounts_length]
  have hlen0 : 0 < done.length := List.length_pos.mpr hne
  rw [List.getD_eq_getElem?_getD, List.getElem?_append, if_pos (by omega)]
  have hcne : intervalCounts flagAt 0 done ≠ [] := by
    intro hx
    have h2 := intervalCounts_length flagAt 0 done
    rw [hx] at h2
    simp only [List.length_nil] at h2
    omega
  have hval := inclusiveScan_getLast (intervalCounts flagAt 0 done) hcne
  rw [intervalCounts_length] at hval
  rw [hval]
  show (intervalCounts flagAt 0 done).sum = _
  rw [intervalCounts_sum, ← filter_length_eq_sum _ _ h01]

theorem runGroups_eq (ctaSize : Nat) (flagAt : Nat → Nat) (input : Nat → α)
    (hcta : 0 < ctaSize) (h01 : ∀ p, flagAt p ≤ 1) (rest : List Nat) :
    ∀ (done : List Nat) (out : Nat → Option α),
      runGroups ctaSize flagAt input
          (inclusiveScan (intervalCounts flagAt 0 (done ++ rest))) rest done.length done.sum out
        = applyWrites out (indexedFrom
            (((List.range' 0 done.sum).filter (fun p => flagAt p != 0)).length)
            (((List.range' done.sum rest.sum).filter (fun p => flagAt p != 0)).map input)) := by
  induction rest with
  | nil =>
    intro done out
    show out = _
    rw [List.sum_nil]
    rfl
  | cons sz rest ih =>
    intro done out
    show runGroups ctaSize flagAt input
        (inclusiveScan (intervalCounts flagAt 0 (done ++ sz :: rest))) rest (done.length + 1)
        (done.sum + sz)
        (closureRun ctaSize flagAt input done.sum (done.sum + sz)
          (groupOutputBase (inclusiveScan (intervalCounts flagAt 0 (done ++ sz :: rest)))
            done.length) out) = _
    have hbase : groupOutputBase
        (inclusiveScan (intervalCounts flagAt 0 (done ++ sz :: rest))) done.length
        = ((List.range' 0 done.sum).filter (fun p => flagAt p != 0)).length := by
      unfold groupOutputBase
      by_cases hd : done = []
      · rw [if_pos (by simp [hd])]
        rw [hd]
        rfl
      · rw [if_neg (by simpa using List.length_pos.mpr hd |>.ne')]
        exact offsetsPrefix_getD flagAt h01 done (sz :: rest) hd
    rw [hbase]
    rw [closureRun_eq ctaSize flagAt input hcta h01 done.sum (done.sum + sz) _ out]
    have hsz : done.sum + sz - done.sum = sz := by omega
    rw [hsz]
    have happ : done ++ sz :: rest = (done ++ [sz]) ++ rest := by
      rw [List.append_assoc]
      rfl
    have hlen1 : done.length + 1 = (done ++ [sz]).length := by simp
    have hsum1 : done.sum + sz = (done ++ [sz]).sum := by simp
    rw [happ, hlen1, hsum1, ih (done ++ [sz])]
    rw [← hsum1]
    have hsplit1 : List.range' 0 (done.sum + sz)
        = List.range' 0 done.sum ++ List.range' done.sum sz := by
      have h1 := List.range'_append_1 0 done.sum sz
      rw [Nat.zero_add, Nat.add_comm sz done.sum] at h1
      rw [← h1]
    have hsplit2 : List.range' done.sum ((sz :: rest).sum)
        = List.range' done.sum sz ++ List.range' (done.sum + sz) rest.sum := by
      rw [List.sum_cons, Nat.add_comm sz rest.sum]
      exact (List.range'_append_1 done.sum sz rest.sum).symm
    rw [hsplit1, hsplit2]
    simp only [List.filter_append, List.map_append, List.length_append, List.length_map,
      indexedFrom_append, applyWrites_append]

theorem selectedList_eq_range' (n : Nat) (input : Nat → α) (stencil : Nat → β)
    (pred : β → Bool) :
    selectedList n input stencil pred
      = ((List.range' 0 n).filter (fun p => predFlag stencil pred p != 0)).map input := by
  unfold selectedList
  rw [List.range_eq_range']
  congr 1
  apply List.filter_congr
  intro p _
  rw [predFlag_bne]

theorem copy_if_eq (n : Nat) (input : Nat → α) (stencil : Nat → β) (pred : β → Bool)
    (sizes : List Nat) (ctaSize : Nat) (out : Nat → Option α)
    (hsum : sizes.sum = n) (hne : sizes ≠ []) (hcta : 0 < ctaSize) :
    copy_if n input stencil pred sizes ctaSize out
      = (applyWrites out (indexedFrom 0 (selectedList n input stencil pred)),
          (selectedList n input stencil pred).length) := by
  by_cases hn : n = 0
  · subst hn
    unfold copy_if
    rw [if_pos rfl]
    have hsel : selectedList 0 input stencil pred = [] := by
      unfold selectedList
      rfl
    rw [hsel]
    rfl
  · unfold copy_if
    rw [if_neg hn]
    have h01 := predFlag_le_one stencil pred
    have hrg := runGroups_eq ctaSize (predFlag stencil pred) input hcta h01 sizes [] out
    simp only [List.nil_append, List.length_nil, List.sum_nil] at hrg
    rw [hrg]
    have hoff := offsetsPrefix_getD (predFlag stencil pred) h01 sizes [] hne
    rw [List.append_nil] at hoff
    rw [hoff, hsum, selectedList_eq_range', List.length_map]
    rfl

/-- C1: for every input range, stencil and predicate, `copy_if` writes to
`output, output+1, ...` exactly the input elements whose stencil satisfies
the predicate, in their original relative order: position `j` of the output
holds the `j`-th element of the predicate-satisfying subsequence of the
input, and positions at or beyond the subsequence length are untouched. -/
theorem copy_if_writes_selected (n : Nat) (input : Nat → α) (stencil : Nat → β)
    (pred : β → Bool) (sizes : List Nat) (ctaSize : Nat) (out : Nat → Option α) (j : Nat)
    (hsum : sizes.sum = n) (hne : sizes ≠ []) (hcta : 0 < ctaSize) :
    (j < (selectedList n input stencil pred).length →
        (copy_if n input stencil pred sizes ctaSize out).1 j
          = (selectedList n input stencil pred)[j]?)
      ∧ ((selectedList n input stencil pred).length ≤ j →
          (copy_if n input stencil pred sizes ctaSize out).1 j = out j) := by
  have h := copy_if_eq n input stencil pred sizes ctaSize out hsum hne hcta
  rw [Prod.ext_iff] at h
  rw [h.1]
  constructor
  · intro hj
    show applyWrites out (indexedFrom 0 (selectedList n input stencil pred)) j
        = (selectedList n input stencil pred)[j]?
    rw [applyWrites_indexedFrom, if_pos ⟨Nat.zero_le j, by omega⟩, Nat.sub_zero]
  · intro hj
    show applyWrites out (indexedFrom 0 (selectedList n input stencil pred)) j = out j
    rw [applyWrites_indexedFrom, if_neg (by omega)]

theorem copy_if_writes_selected_witness :
    (([2, 1] : List Nat).sum = 3 ∧ ([2, 1] : List Nat) ≠ [] ∧ 0 < 2)
      ∧ (copy_if 3 (fun p => p + 10) (fun p : Nat => p) (fun s => s % 2 == 0) [2, 1] 2
          (fun _ => none)).1 0 = some 10 := by
  refine ⟨⟨by decide, by decide, by decide⟩, ?_⟩
  have h := copy_if_writes_selected 3 (fun p => p + 10) (fun p : Nat => p)
    (fun s => s % 2 == 0) [2, 1] 2 (fun _ => none) 0 (by decide) (by decide) (by decide)
  rw [h.1 (by decide)]
  decide

/-- C2: the returned offset equals the number of predicate-true positions of
the input, for every input size; an empty input returns `output` unchanged
at once. -/
theorem copy_if_count (n : Nat) (input : Nat → α) (stencil : Nat → β) (pred : β → Bool)
    (sizes : List Nat) (ctaSize : Nat) (out : Nat → Option α)
    (hsum : sizes.sum = n) (hne : sizes ≠ []) (hcta : 0 < ctaSize) :
    (copy_if n input stencil pred sizes ctaSize out).2
        = ((List.range n).filter (fun p => pred (stencil p))).length
      ∧ (n = 0 → copy_if n input stencil pred sizes ctaSize out = (out, 0)) := by
  constructor
  · have h := copy_if_eq n input stencil pred sizes ctaSize out hsum hne hcta
    rw [Prod.ext_iff] at h
    rw [h.2]
    unfold selectedList
    rw [List.length_map]
  · intro h0
    unfold copy_if
    rw [if_pos h0]

theorem copy_if_count_witness :
    (([2, 1] : List Nat).sum = 3 ∧ ([2, 1] : List Nat) ≠ [] ∧ 0 < 2)
      ∧ (copy_if 3 (fun p => p + 10) (fun p : Nat => p) (fun s => s % 2 == 0) [2, 1] 2
          (fun _ => none)).2 = 2 := by
  refine ⟨⟨by decide, by decide, by decide⟩, ?_⟩
  have h := copy_if_count 3 (fun p => p + 10) (fun p : Nat => p) (fun s => s % 2 == 0)
    [2, 1] 2 (fun _ => none) (by decide) (by decide) (by decide)
  rw [h.1]
  decide

/-- C7: the scatter pass's output base offset is 0 for group 0 (the offsets
lookup is skipped) and for every later group `g` it is the scanned value
`PerGroupOffsets[g-1]` of the previous group: the number of predicate-true
positions in all prior groups' intervals. -/
theorem groupOutputBase_prior_count (stencil : Nat → β) (pred : β → Bool)
    (sizes : List Nat) (g : Nat) (hg : g < sizes.length) :
    groupOutputBase (inclusiveScan (intervalCounts (predFlag stencil pred) 0 sizes)) g
      = ((List.range ((sizes.take g).sum)).filter (fun p => pred (stencil p))).length := by
  by_cases hg0 : g = 0
  · subst hg0
    unfold groupOutputBase
    rw [if_pos rfl]
    rfl
  · unfold groupOutputBase
    rw [if_neg hg0]
    have htne : sizes.take g ≠ [] := by
      intro hx
      have h2 := List.length_take g sizes
      rw [hx] at h2
      simp only [List.length_nil] at h2
      omega
    have hlen : (sizes.take g).length = g := by
      rw [List.length_take]
      omega
    have hoff := offsetsPrefix_getD (predFlag stencil pred) (predFlag_le_one stencil pred)
      (sizes.take g) (sizes.drop g) htne
    rw [List.take_append_drop, hlen] at hoff
    rw [hoff, List.range_eq_range']
    congr 1
    apply List.filter_congr
    intro p _
    rw [predFlag_bne]

theorem groupOutputBase_prior_count_witness :
    1 < ([2, 1] : List Nat).length
      ∧ groupOutputBase (inclusiveScan
          (intervalCounts (predFlag (fun p : Nat => p) (fun s => s % 2 == 0)) 0 [2, 1])) 1
        = 1 := by
  refine ⟨by decide, ?_⟩
  have h := groupOutputBase_prior_count (fun p : Nat => p) (fun s => s % 2 == 0) [2, 1] 1
    (by decide)
  rw [h]
  decide

/-- C8: `copy_if` is deterministic and has no hidden mutable state: for a
fixed input range, stencil and predicate, the returned offset and every
output cell below it are the same for any two runs, whatever the previous
contents of the two destination arrays. -/
theorem copy_if_deterministic (n : Nat) (input : Nat → α) (stencil : Nat → β)
    (pred : β → Bool) (sizes : List Nat) (ctaSize : Nat)
    (out1 out2 : Nat → Option α) (j : Nat)
    (hsum : sizes.sum = n) (hne : sizes ≠ []) (hcta : 0 < ctaSize) :
    (copy_if n input stencil pred sizes ctaSize out1).2
        = (copy_if n input stencil pred sizes ctaSize out2).2
      ∧ (j < (copy_if n input stencil pred sizes ctaSize out1).2 →
          (copy_if n input stencil pred sizes ctaSize out1).1 j
            = (copy_if n input stencil pred sizes ctaSize out2).1 j) := by
  have h1 := copy_if_eq n input stencil pred sizes ctaSize out1 hsum hne hcta
  have h2 := copy_if_eq n input stencil pred sizes ctaSize out2 hsum hne hcta
  rw [Prod.ext_iff] at h1 h2
  constructor
  · rw [h1.2, h2.2]
  · intro hj
    rw [h1.2] at hj
    have hj2 : j < (selectedList n input stencil pred).length := hj
    rw [h1.1, h2.1]
    show applyWrites out1 (indexedFrom 0 (selectedList n input stencil pred)) j
        = applyWrites out2 (indexedFrom 0 (selectedList n input stencil pred)) j
    rw [applyWrites_indexedFrom, applyWrites_indexedFrom,
        if_pos ⟨Nat.zero_le j, by omega⟩, if_pos ⟨Nat.zero_le j, by omega⟩]

theorem copy_if_deterministic_witness :
    (([2, 1] : List Nat).sum = 3 ∧ ([2, 1] : List Nat) ≠ [] ∧ 0 < 2)
      ∧ (copy_if 3 (fun p => p + 10) (fun p : Nat => p) (fun s => s % 2 == 0) [2, 1] 2
            (fun _ => none)).2
          = (copy_if 3 (fun p => p + 10) (fun p : Nat => p) (fun s => s % 2 == 0) [2, 1] 2
            (fun _ => some 99)).2
      ∧ (copy_if 3 (fun p => p + 10) (fun p : Nat => p) (fun s => s % 2 == 0) [2, 1] 2
            (fun _ => none)).1 0
          = (copy_if 3 (fun p => p + 10) (fun p : Nat => p) (fun s => s % 2 == 0) [2, 1] 2
            (fun _ => some 99)).1 0 := by
  have h := copy_if_deterministic 3 (fun p => p + 10) (fun p : Nat => p)
    (fun s => s % 2 == 0) [2, 1] 2 (fun _ => none) (fun _ => some 99) 0
    (by decide) (by decide) (by decide)
  refine ⟨⟨by decide, by decide, by decide⟩, h.1, h.2 ?_⟩
  have he := copy_if_eq 3 (fun p => p + 10) (fun p : Nat => p) (fun s => s % 2 == 0)
    [2, 1] 2 (fun _ => none) (by decide) (by decide) (by decide)
  rw [Prod.ext_iff] at he
  rw [he.2]
  decide

/-- C4: in the final short chunk, a lane whose position is at or beyond the
interval end contributes flag 0 to the group scan (first conjunct: the flag
list read by a chunk starting at `b` is 0 at each lane `t` with
`e ≤ b + t`), and no element at or beyond the interval end is ever treated
as predicate-true: the whole scatter result is unchanged if every flag at
positions `≥ e` is forced to 0 (second conjunct). -/
theorem closureRun_boundary (ctaSize : Nat) (flagAt : Nat → Nat) (input : Nat → α)
    (base e outBase : Nat) (out : Nat → Option α) (b t : Nat)
    (hcta : 0 < ctaSize) (h01 : ∀ p, flagAt p ≤ 1) :
    (t < ctaSize → e ≤ b + t →
        ((List.range' b ctaSize).map (fun p => if p < e then flagAt p else 0)).getD t 0 = 0)
      ∧ closureRun ctaSize flagAt input base e outBase out
          = closureRun ctaSize (fun p => if p < e then flagAt p else 0) input
              base e outBase out := by
  constructor
  · intro ht hbe
    rw [List.getD_eq_getElem?_getD, List.getElem?_map, List.getElem?_range' b 1 ht]
    simp only [Option.map_some', Option.getD_some]
    rw [if_neg (by omega)]
  · have h01c : ∀ p, (fun p => if p < e then flagAt p else 0) p ≤ 1 := by
      intro p
      by_cases hp : p < e
      · simpa [hp] using h01 p
      · simp [hp]
    rw [closureRun_eq ctaSize flagAt input hcta h01 base e outBase out,
        closureRun_eq ctaSize _ input hcta h01c base e outBase out]
    have hfil : (List.range' base (e - base)).filter
          (fun p => (if p < e then flagAt p else 0) != 0)
        = (List.range' base (e - base)).filter (fun p => flagAt p != 0) := by
      apply List.filter_congr
      intro p hp
      have hpr := List.mem_range'_1.mp hp
      rw [if_pos (by omega : p < e)]
    rw [hfil]

theorem closureRun_boundary_witness :
    (0 < 2 ∧ 1 < 2 ∧ 3 ≤ 2 + 1)
      ∧ ((List.range' 2 2).map
          (fun p => if p < 3 then (if p = 2 then 1 else if 3 ≤ p then 1 else 0) else 0)).getD
            1 0 = 0
      ∧ closureRun 2 (fun p => if p = 2 then 1 else if 3 ≤ p then 1 else 0)
            (fun p => p + 10) 0 3 0 (fun _ => (none : Option Nat))
          = closureRun 2
              (fun p => if p < 3 then (if p = 2 then 1 else if 3 ≤ p then 1 else 0) else 0)
              (fun p => p + 10) 0 3 0 (fun _ => (none : Option Nat)) := by
  have h := closureRun_boundary 2 (fun p => if p = 2 then 1 else if 3 ≤ p then 1 else 0)
    (fun p => p + 10) 0 3 0 (fun _ => (none : Option Nat)) 2 1 (by decide)
    (by
      intro p
      by_cases h2 : p = 2
      · simp [h2]
      · by_cases h3 : 3 ≤ p <;> simp [h2, h3])
  exact ⟨⟨by decide, by decide, by decide⟩, h.1 (by decide) (by decide), h.2⟩

/-- Lane `lane`'s strided index sequence `i, i + stride, ...` below `n`: the
loop `for(i = thread_index; i < n; i += block_dimension)` of
`trivial_copy_detail::aligned_copy` (copy.h lines 62-67), of the byte loop of
`trivial_copy` (lines 95-98), and of the generic dispatch path
(lines 169-178). -/
def strideIdx (stride i n : Nat) : List Nat :=
  if h : i < n ∧ 0 < stride then i :: strideIdx stride (i + stride) n else []
termination_by n - i
decreasing_by omega

/-- One element assignment `dst[j] = src[j]` for elements of `sz` bytes over
a byte-addressed memory: each of the `sz` bytes at `dst + sz*j` takes the
value of the corresponding byte at `src + sz*j`, read from the memory state
before this assignment (the semantics of assigning one trivially copyable
value: its byte representation is copied). -/
def writeElem (sz dst src j : Nat) (mem : Nat → V) : Nat → V :=
  fun a =>
    if dst + sz * j ≤ a ∧ a < dst + sz * j + sz then
      mem (src + sz * j + (a - (dst + sz * j)))
    else mem a

/-- One lane's loop body: the element assignments at its strided indices, in
loop order; each assignment reads its source bytes from the memory produced
by the previous assignments. -/
def copyElems (sz dst src : Nat) (mem : Nat → V) : List Nat → (Nat → V)
  | [] => mem
  | j :: rest => copyElems sz dst src (writeElem sz dst src j mem) rest

/-- All lanes of `trivial_copy_detail::aligned_copy(context, dst, src,
num_elements)` (copy.h lines 57-68), from lane `lane` up: lane `i` copies
elements `i, i + blockDim, ...`.  Distinct lanes write disjoint destination
elements, so the concurrent lanes are serialized in lane order. -/
def alignedCopyLanes (bd sz dst src n lane : Nat) (mem : Nat → V) : Nat → V :=
  if h : lane < bd then
    alignedCopyLanes bd sz dst src n (lane + 1)
      (copyElems sz dst src mem (strideIdx bd lane n))
  else mem
termination_by bd - lane

/-- `trivial_copy_detail::aligned_copy` run by all `bd` lanes of the group,
on elements of `sz` bytes at byte addresses `dst` and `src`. -/
def aligned_copy (bd sz dst src n : Nat) (mem : Nat → V) : Nat → V :=
  alignedCopyLanes bd sz dst src n 0 mem

/-- `trivial_copy_detail::quotient_and_remainder` (copy.h lines 47-53):
`quotient = n / d`, `remainder = n - d * quotient`. -/
def quotient_and_remainder (n d : Nat) : Nat × Nat :=
  (n / d, n - d * (n / d))

/-- The wide word size `sizeof(int2)` = `sizeof(uint2)`: 8 bytes (two 4-byte
integers; the non-NVCC fallback typedefs them to `long long`). -/
def wordSize : Nat := 8

/-- `trivial_copy(context, destination_, source_, num_bytes)` (copy.h lines
74-125) over a byte-addressed memory.  If either address is misaligned to
the wide word size, all bytes are copied at byte granularity by the strided
per-lane loop of lines 95-98 (the same loop shape as `aligned_copy` with
1-byte elements).  If both are aligned, the `numBytes / 8` wide words are
copied by `aligned_copy` on 8-byte elements, then the remaining
`numBytes - 8 * (numBytes / 8)` bytes are copied bytewise starting at the
addresses advanced by `sizeof(int2) * quotient` (lines 106-123). -/
def trivial_copy (bd dst src numBytes : Nat) (mem : Nat → V) : Nat → V :=
  if dst % wordSize ≠ 0 ∨ src % wordSize ≠ 0 then
    aligned_copy bd 1 dst src numBytes mem
  else
    aligned_copy bd 1 (dst + wordSize * (quotient_and_remainder numBytes wordSize).1)
      (src + wordSize * (quotient_and_remainder numBytes wordSize).1)
      (quotient_and_remainder numBytes wordSize).2
      (aligned_copy bd wordSize dst src (quotient_and_remainder numBytes wordSize).1 mem)

/-- Whether byte address `a` falls in the destination region of one of the
elements `idxs` (elements of `sz` bytes based at `dst`). -/
def inRegions (sz dst : Nat) (idxs : List Nat) (a : Nat) : Bool :=
  idxs.any (fun j => decide (dst + sz * j ≤ a) && decide (a < dst + sz * j + sz))

theorem inRegions_iff (sz dst : Nat) (idxs : List Nat) (a : Nat) :
    inRegions sz dst idxs a = true
      ↔ ∃ j ∈ idxs, dst + sz * j ≤ a ∧ a < dst + sz * j + sz := by
  unfold inRegions
  rw [List.any_eq_true]
  constructor
  · rintro ⟨j, hj, hc⟩
    simp only [Bool.and_eq_true, decide_eq_true_eq] at hc
    exact ⟨j, hj, hc⟩
  · rintro ⟨j, hj, hc⟩
    refine ⟨j, hj, ?_⟩
    simp only [Bool.and_eq_true, decide_eq_true_eq]
    exact hc

theorem mem_strideIdx (stride i n j : Nat) (hst : 0 < stride) :
    j ∈ strideIdx stride i n ↔ ∃ m, j = i + stride * m ∧ j < n := by
  rw [strideIdx]
  by_cases h : i < n
  · rw [dif_pos ⟨h, hst⟩, List.mem_cons, mem_strideIdx stride (i + stride) n j hst]
    constructor
    · rintro (rfl | ⟨m, rfl, hm⟩)
      · exact ⟨0, by omega, h⟩
      · exact ⟨m + 1, by rw [Nat.mul_succ]; omega, hm⟩
    · rintro ⟨m, rfl, hm⟩
      cases m with
      | zero => left; omega
      | succ m =>
        right
        exact ⟨m, by rw [Nat.mul_succ]; omega, hm⟩
  · rw [dif_neg (by omega)]
    simp only [List.not_mem_nil, false_iff]
    rintro ⟨m, rfl, hm⟩
    omega
termination_by n - i
decreasing_by omega

theorem copyElems_eq (sz dst src n : Nat) (idxs : List Nat) (mem : Nat → V)
    (hsz : 0 < sz) (hdisj : dst + sz * n ≤ src ∨ src + sz * n ≤ dst)
    (hidx : ∀ j ∈ idxs, j < n) (a : Nat) :
    copyElems sz dst src mem idxs a
      = if inRegions sz dst idxs a = true then mem (src + (a - dst)) else mem a := by
  induction idxs generalizing mem with
  | nil =>
    show mem a = _
    rw [if_neg (by simp [inRegions])]
  | cons j rest ih =>
    show copyElems sz dst src (writeElem sz dst src j mem) rest a = _
    rw [ih (writeElem sz dst src j mem) (fun x hx => hidx x (by simp [hx]))]
    have hj : j < n := hidx j (by simp)
    have hjr : sz * j + sz ≤ sz * n := by
      have h1 := Nat.mul_le_mul_left sz (by omega : j + 1 ≤ n)
      rw [Nat.mul_succ] at h1
      omega
    by_cases hrest : inRegions sz dst rest a = true
    · rw [if_pos hrest]
      have hcov : dst ≤ a ∧ a - dst < sz * n := by
        obtain ⟨x, hx, hc1, hc2⟩ := (inRegions_iff sz dst rest a).mp hrest
        have hxn : x < n := hidx x (by simp [hx])
        have hxr : sz * x + sz ≤ sz * n := by
          have h1 := Nat.mul_le_mul_left sz (by omega : x + 1 ≤ n)
          rw [Nat.mul_succ] at h1
          omega
        omega
      have hw : writeElem sz dst src j mem (src + (a - dst)) = mem (src + (a - dst)) := by
        unfold writeElem
        rw [if_neg (by omega)]
      rw [hw, if_pos ?hp]
      case hp =>
        rw [inRegions_iff] at hrest ⊢
        obtain ⟨x, hx, hc⟩ := hrest
        exact ⟨x, by simp [hx], hc⟩
    · rw [if_neg hrest]
      unfold writeElem
      by_cases hja : dst + sz * j ≤ a ∧ a < dst + sz * j + sz
      · rw [if_pos hja]
        have harg : src + sz * j + (a - (dst + sz * j)) = src + (a - dst) := by omega
        rw [harg, if_pos ?hp2]
        case hp2 =>
          rw [inRegions_iff]
          exact ⟨j, by simp, hja⟩
      · rw [if_neg hja, if_neg ?hq]
        case hq =>
          rw [inRegions_iff]
          rintro ⟨x, hx, hc⟩
          rcases List.mem_cons.mp hx with rfl | hx2
          · exact hja hc
          · exact hrest ((inRegions_iff sz dst rest a).mpr ⟨x, hx2, hc⟩)

theorem alignedCopyLanes_eq (bd sz dst src n : Nat) (hbd : 0 < bd) (hsz : 0 < sz)
    (hdisj : dst + sz * n ≤ src ∨ src + sz * n ≤ dst) (lane : Nat) (mem : Nat → V)
    (a : Nat) :
    alignedCopyLanes bd sz dst src n lane mem a
      = if dst ≤ a ∧ (a - dst) / sz < n ∧ lane ≤ ((a - dst) / sz) % bd
        then mem (src + (a - dst)) else mem a := by
  by_cases hl : lane < bd
  · rw [alignedCopyLanes, dif_pos hl]
    rw [alignedCopyLanes_eq bd sz dst src n hbd hsz hdisj (lane + 1) _ a]
    have hidx : ∀ j ∈ strideIdx bd lane n, j < n := by
      intro j hj
      obtain ⟨m, rfl, hm⟩ := (mem_strideIdx bd lane n j hbd).mp hj
      exact hm
    have hmemr : ∀ j, j ∈ strideIdx bd lane n ↔ j < n ∧ j % bd = lane := by
      intro j
      rw [mem_strideIdx bd lane n j hbd]
      constructor
      · rintro ⟨m, rfl, hm⟩
        refine ⟨hm, ?_⟩
        rw [Nat.add_mul_mod_self_left]
        exact Nat.mod_eq_of_lt hl
      · rintro ⟨hjn, hjl⟩
        refine ⟨j / bd, ?_, hjn⟩
        have hdm := Nat.div_add_mod j bd
        omega
    by_cases hcov : dst ≤ a ∧ (a - dst) / sz < n ∧ lane + 1 ≤ ((a - dst) / sz) % bd
    · rw [if_pos hcov]
      rw [copyElems_eq sz dst src n _ mem hsz hdisj hidx (src + (a - dst))]
      have hlt : a - dst < sz * n := by
        have h1 := (Nat.div_lt_iff_lt_mul hsz).mp hcov.2.1
        rw [Nat.mul_comm n sz] at h1
        omega
      rw [if_neg ?hsrc, if_pos ⟨hcov.1, hcov.2.1, by omega⟩]
      case hsrc =>
        rw [inRegions_iff]
        rintro ⟨x, hx, hc1, hc2⟩
        have hxn : x < n := hidx x hx
        have hxr : sz * x + sz ≤ sz * n := by
          have h1 := Nat.mul_le_mul_left sz (by omega : x + 1 ≤ n)
          rw [Nat.mul_succ] at h1
          omega
        omega
    · rw [if_neg hcov]
      rw [copyElems_eq sz dst src n _ mem hsz hdisj hidx a]
      by_cases hja : inRegions sz dst (strideIdx bd lane n) a = true
      · rw [if_pos hja]
        obtain ⟨j, hjmem, hc1, hc2⟩ := (inRegions_iff sz dst (strideIdx bd lane n) a).mp hja
        obtain ⟨hjn, hjl⟩ := (hmemr j).mp hjmem
        have hdiv : (a - dst) / sz = j := by
          have h1 : j * sz ≤ a - dst := by
            rw [Nat.mul_comm]
            omega
          have h2 : a - dst < (j + 1) * sz := by
            rw [Nat.succ_mul, Nat.mul_comm]
            omega
          exact Nat.div_eq_of_lt_le h1 h2
        rw [if_pos ?hfin]
        case hfin =>
          rw [hdiv, hjl]
          exact ⟨by omega, hjn, by omega⟩
      · rw [if_neg hja, if_neg ?hfin2]
        case hfin2 =>
          rintro ⟨hda, hdn, hdl⟩
          by_cases heq : ((a - dst) / sz) % bd = lane
          · apply hja
            rw [inRegions_iff]
            refine ⟨(a - dst) / sz, (hmemr _).mpr ⟨hdn, heq⟩, ?_⟩
            have hdm := Nat.div_add_mod (a - dst) sz
            have hmlt := Nat.mod_lt (a - dst) hsz
            omega
          · exact hcov ⟨hda, hdn, by omega⟩
  · rw [alignedCopyLanes, dif_neg hl]
    rw [if_neg ?hend]
    case hend =>
      rintro ⟨hda, hdn, hdl⟩
      have := Nat.mod_lt ((a - dst) / sz) hbd
      omega
termination_by bd - lane

theorem aligned_copy_eq (bd sz dst src n : Nat) (hbd : 0 < bd) (hsz : 0 < sz)
    (hdisj : dst + sz * n ≤ src ∨ src + sz * n ≤ dst) (mem : Nat → V) (a : Nat) :
    aligned_copy bd sz dst src n mem a
      = if dst ≤ a ∧ a - dst < sz * n then mem (src + (a - dst)) else mem a := by
  unfold aligned_copy
  rw [alignedCopyLanes_eq bd sz dst src n hbd hsz hdisj 0 mem a]
  by_cases hc : dst ≤ a ∧ a - dst < sz * n
  · rw [if_pos hc]
    have hdn : (a - dst) / sz < n := by
      rw [Nat.div_lt_iff_lt_mul hsz, Nat.mul_comm n sz]
      have := hc.2
      omega
    rw [if_pos ⟨hc.1, hdn, Nat.zero_le _⟩]
  · rw [if_neg hc]
    rw [if_neg ?h2]
    case h2 =>
      rintro ⟨hda, hdn, _⟩
      have h1 := (Nat.div_lt_iff_lt_mul hsz).mp hdn
      rw [Nat.mul_comm n sz] at h1
      exact hc ⟨hda, by omega⟩

theorem trivial_copy_eq (bd dst src numBytes : Nat) (mem : Nat → V) (hbd : 0 < bd)
    (hdisj : dst + numBytes ≤ src ∨ src + numBytes ≤ dst) (a : Nat) :
    trivial_copy bd dst src numBytes mem a
      = if dst ≤ a ∧ a - dst < numBytes then mem (src + (a - dst)) else mem a := by
  unfold trivial_copy
  by_cases hal : dst % wordSize ≠ 0 ∨ src % wordSize ≠ 0
  · rw [if_pos hal]
    rw [aligned_copy_eq bd 1 dst src numBytes hbd (by omega) (by omega) mem a]
    rw [Nat.one_mul]
  · rw [if_neg hal]
    show aligned_copy bd 1 (dst + 8 * (numBytes / 8)) (src + 8 * (numBytes / 8))
        (numBytes - 8 * (numBytes / 8)) (aligned_copy bd 8 dst src (numBytes / 8) mem) a = _
    have hinner : ∀ x, aligned_copy bd 8 dst src (numBytes / 8) mem x
        = if dst ≤ x ∧ x - dst < 8 * (numBytes / 8) then mem (src + (x - dst)) else mem x := by
      intro x
      exact aligned_copy_eq bd 8 dst src (numBytes / 8) hbd (by omega) (by omega) mem x
    rw [aligned_copy_eq bd 1 _ _ _ hbd (by omega) (by omega) _ a, Nat.one_mul]
    by_cases hrem : dst + 8 * (numBytes / 8) ≤ a
        ∧ a - (dst + 8 * (numBytes / 8)) < numBytes - 8 * (numBytes / 8)
    · rw [if_pos hrem]
      have harg : src + 8 * (numBytes / 8) + (a - (dst + 8 * (numBytes / 8)))
          = src + (a - dst) := by omega
      rw [harg, hinner, if_neg (by omega), if_pos (by omega)]
    · rw [if_neg hrem, hinner]
      by_cases hw : dst ≤ a ∧ a - dst < 8 * (numBytes / 8)
      · rw [if_pos hw, if_pos (by omega)]
      · rw [if_neg hw, if_neg (by omega)]

/-- C3: for every byte count and pair of non-overlapping source and
destination addresses, aligned or misaligned and whether or not the count is
a multiple of the wide word size, `trivial_copy` makes the destination's
first `numBytes` bytes equal the source's first `numBytes` bytes, the lanes
of the group cooperating in strided fashion. -/
theorem trivial_copy_correct (bd dst src numBytes : Nat) (mem : Nat → V) (b : Nat)
    (hbd : 0 < bd) (hdisj : dst + numBytes ≤ src ∨ src + numBytes ≤ dst)
    (hb : b < numBytes) :
    trivial_copy bd dst src numBytes mem (dst + b) = mem (src + b) := by
  rw [trivial_copy_eq bd dst src numBytes mem hbd hdisj (dst + b), if_pos (by omega)]
  congr 1
  omega

theorem trivial_copy_correct_witness :
    (0 < 2 ∧ ((10 : Nat) + 5 ≤ 0 ∨ (0 : Nat) + 5 ≤ 10) ∧ 2 < 5)
      ∧ trivial_copy 2 10 0 5 (fun a : Nat => a) 12 = 2 := by
  refine ⟨⟨by decide, by decide, by decide⟩, ?_⟩
  exact trivial_copy_correct 2 10 0 5 (fun a : Nat => a) 2 (by decide) (by decide) (by decide)

/-- C5: `trivial_copy` dispatches symmetrically on alignment: if either
address is misaligned to the wide word size, all bytes move at byte
granularity in the lane-strided loop (lane `i` handles byte indices
`i, i + groupSize, ...`); if both are aligned, `numBytes / 8` wide transfers
run first and then the `numBytes % 8` trailing bytes, `quotient_and_remainder`
returning exactly the division quotient and remainder, which recompose to
`numBytes`. -/
theorem trivial_copy_dispatch (bd dst src numBytes : Nat) (mem : Nat → V) (lane j : Nat) :
    (dst % wordSize ≠ 0 ∨ src % wordSize ≠ 0 →
        trivial_copy bd dst src numBytes mem = aligned_copy bd 1 dst src numBytes mem)
      ∧ (dst % wordSize = 0 ∧ src % wordSize = 0 →
          trivial_copy bd dst src numBytes mem
            = aligned_copy bd 1 (dst + wordSize * (numBytes / wordSize))
                (src + wordSize * (numBytes / wordSize)) (numBytes % wordSize)
                (aligned_copy bd wordSize dst src (numBytes / wordSize) mem))
      ∧ quotient_and_remainder numBytes wordSize
          = (numBytes / wordSize, numBytes % wordSize)
      ∧ wordSize * (numBytes / wordSize) + numBytes % wordSize = numBytes
      ∧ (lane < bd → (j ∈ strideIdx bd lane numBytes ↔ j < numBytes ∧ j % bd = lane)) := by
  have hq2 : (quotient_and_remainder numBytes wordSize).2 = numBytes % wordSize := by
    show numBytes - wordSize * (numBytes / wordSize) = numBytes % wordSize
    have h3 := Nat.div_add_mod numBytes wordSize
    omega
  refine ⟨?_, ?_, ?_, Nat.div_add_mod numBytes wordSize, ?_⟩
  · intro h
    unfold trivial_copy
    rw [if_pos h]
  · intro h
    unfold trivial_copy
    rw [if_neg (by simp [h.1, h.2])]
    rw [hq2]
    have hq1 : (quotient_and_remainder numBytes wordSize).1 = numBytes / wordSize := rfl
    rw [hq1]
  · unfold quotient_and_remainder
    rw [Prod.mk.injEq]
    refine ⟨rfl, ?_⟩
    have h3 := Nat.div_add_mod numBytes wordSize
    omega
  · intro hl
    rw [mem_strideIdx bd lane numBytes j (by omega)]
    constructor
    · rintro ⟨m, rfl, hm⟩
      refine ⟨hm, ?_⟩
      rw [Nat.add_mul_mod_self_left]
      exact Nat.mod_eq_of_lt hl
    · rintro ⟨hjn, hjl⟩
      refine ⟨j / bd, ?_, hjn⟩
      have hdm := Nat.div_add_mod j bd
      omega

theorem trivial_copy_dispatch_witness :
    ((8 : Nat) % wordSize = 0 ∧ (0 : Nat) % wordSize = 0 ∧ 1 < 2)
      ∧ trivial_copy 2 8 0 5 (fun a : Nat => a)
          = aligned_copy 2 1 (8 + wordSize * (5 / wordSize)) (0 + wordSize * (5 / wordSize))
              (5 % wordSize) (aligned_copy 2 wordSize 8 0 (5 / wordSize) (fun a : Nat => a))
      ∧ quotient_and_remainder 5 wordSize = (5 / wordSize, 5 % wordSize)
      ∧ wordSize * (5 / wordSize) + 5 % wordSize = 5
      ∧ (3 ∈ strideIdx 2 1 5 ↔ 3 < 5 ∧ 3 % 2 = 1) := by
  have h := trivial_copy_dispatch 2 8 0 5 (fun a : Nat => a) 1 3
  exact ⟨⟨by decide, by decide, by decide⟩, h.2.1 ⟨by decide, by decide⟩, h.2.2.1,
    h.2.2.2.1, h.2.2.2.2 (by decide)⟩

/-- `detail::dispatch::copy(context, first, last, result, true_type)`
(copy.h lines 133-154): for `n = last - first` trivially copyable elements
of `szT` bytes lying contiguously at byte addresses `srcA` (source) and
`dstA` (destination), it takes the raw addresses and delegates to
`trivial_copy` with `n * sizeof(T)` bytes, returning `result + n` — the
destination advanced by `n` elements. -/
def dispatch_copy_trivial (bd szT dstA srcA n : Nat) (mem : Nat → V) : (Nat → V) × Nat :=
  (trivial_copy bd dstA srcA (n * szT) mem, dstA + szT * n)

/-- `detail::dispatch::copy(context, first, last, result, false_type)`
(copy.h lines 156-181): `end_of_output = result + (last - first)` is
computed analytically before the loop; lane `t` then copies elements
`t, t + blockDim, ...` by strided dereference-assign — the same per-lane
loop as `trivial_copy_detail::aligned_copy`, at element granularity — and
the precomputed end is returned regardless of how many lanes did work. -/
def dispatch_copy_generic (bd szT dstA srcA n : Nat) (mem : Nat → V) : (Nat → V) × Nat :=
  (aligned_copy bd szT dstA srcA n mem, dstA + szT * n)

/-- `block::copy` (copy.h lines 186-203): dispatch on the compile-time flag
`is_trivial_copy`, which is forced to `false_type` when
`__CUDA_ARCH__ < 200`. -/
def block_copy (isTrivial : Bool) (bd szT dstA srcA n : Nat) (mem : Nat → V) :
    (Nat → V) × Nat :=
  if isTrivial then dispatch_copy_trivial bd szT dstA srcA n mem
  else dispatch_copy_generic bd szT dstA srcA n mem

/-- C6: both dispatch paths of the block-level element copy transfer every
byte of the `n` copied elements in order, and both return
`result + (last - first)`, a value computed analytically rather than by
counting lane work. -/
theorem dispatch_copy_correct (bd szT dstA srcA n : Nat) (mem : Nat → V) (b : Nat)
    (hbd : 0 < bd) (hsz : 0 < szT)
    (hdisj : dstA + szT * n ≤ srcA ∨ srcA + szT * n ≤ dstA) :
    (dispatch_copy_trivial bd szT dstA srcA n mem).2 = dstA + szT * n
      ∧ (dispatch_copy_generic bd szT dstA srcA n mem).2 = dstA + szT * n
      ∧ (b < szT * n →
          (dispatch_copy_trivial bd szT dstA srcA n mem).1 (dstA + b) = mem (srcA + b))
      ∧ (b < szT * n →
          (dispatch_copy_generic bd szT dstA srcA n mem).1 (dstA + b) = mem (srcA + b)) := by
  refine ⟨rfl, rfl, ?_, ?_⟩
  · intro hb
    show trivial_copy bd dstA srcA (n * szT) mem (dstA + b) = _
    rw [trivial_copy_eq bd dstA srcA (n * szT) mem hbd
        (by rw [Nat.mul_comm n szT]; exact hdisj) (dstA + b)]
    rw [if_pos ⟨by omega, by rw [Nat.mul_comm n szT]; omega⟩]
    congr 1
    omega
  · intro hb
    show aligned_copy bd szT dstA srcA n mem (dstA + b) = _
    rw [aligned_copy_eq bd szT dstA srcA n hbd hsz hdisj mem (dstA + b)]
    rw [if_pos ⟨by omega, by omega⟩]
    congr 1
    omega

theorem dispatch_copy_correct_witness :
    (0 < 2 ∧ 0 < 2 ∧ ((10 : Nat) + 2 * 3 ≤ 0 ∨ (0 : Nat) + 2 * 3 ≤ 10) ∧ 4 < 2 * 3)
      ∧ (dispatch_copy_trivial 2 2 10 0 3 (fun a : Nat => a)).2 = 16
      ∧ (dispatch_copy_generic 2 2 10 0 3 (fun a : Nat => a)).2 = 16
      ∧ (dispatch_copy_trivial 2 2 10 0 3 (fun a : Nat => a)).1 14 = 4
      ∧ (dispatch_copy_generic 2 2 10 0 3 (fun a : Nat => a)).1 14 = 4 := by
  have h := dispatch_copy_correct 2 2 10 0 3 (fun a : Nat => a) 4 (by decide) (by decide)
    (by decide)
  exact ⟨⟨by decide, by decide, by decide, by decide⟩, h.1, h.2.1, h.2.2.1 (by decide),
    h.2.2.2 (by decide)⟩

/-- C9: for trivially copyable elements over contiguous memory, the raw-byte
fast dispatch branch and the generic per-element branch of `block::copy`
produce identical destination contents and the same returned iterator, so
the forced fallback to the generic branch on pre-Fermi architectures does
not change the result. -/
theorem block_copy_paths_equal (bd szT dstA srcA n : Nat) (mem : Nat → V) (a : Nat)
    (hbd : 0 < bd) (hsz : 0 < szT)
    (hdisj : dstA + szT * n ≤ srcA ∨ srcA + szT * n ≤ dstA) :
    (block_copy true bd szT dstA srcA n mem).1 a
        = (block_copy false bd szT dstA srcA n mem).1 a
      ∧ (block_copy true bd szT dstA srcA n mem).2
        = (block_copy false bd szT dstA srcA n mem).2 := by
  refine ⟨?_, rfl⟩
  show trivial_copy bd dstA srcA (n * szT) mem a = aligned_copy bd szT dstA srcA n mem a
  rw [trivial_copy_eq bd dstA srcA (n * szT) mem hbd
      (by rw [Nat.mul_comm n szT]; exact hdisj) a]
  rw [aligned_copy_eq bd szT dstA srcA n hbd hsz hdisj mem a]
  rw [Nat.mul_comm n szT]

theorem block_copy_paths_equal_witness :
    (0 < 2 ∧ 0 < 2 ∧ ((10 : Nat) + 2 * 3 ≤ 0 ∨ (0 : Nat) + 2 * 3 ≤ 10))
      ∧ (block_copy true 2 2 10 0 3 (fun a : Nat => a)).1 11
          = (block_copy false 2 2 10 0 3 (fun a : Nat => a)).1 11
      ∧ (block_copy true 2 2 10 0 3 (fun a : Nat => a)).2
          = (block_copy false 2 2 10 0 3 (fun a : Nat => a)).2 := by
  have h := block_copy_paths_equal 2 2 10 0 3 (fun a : Nat => a) 11 (by decide) (by decide)
    (by decide)
  exact ⟨⟨by decide, by decide, by decide⟩, h.1, h.2⟩

/-- A range type exposing `begin()`/`end()` members, as consumed by the
default overload of `thrust::experimental::end` (end.h lines 40-46). -/
structure RangeModel (ι : Type) where
  beginIt : ι
  endIt : ι

/-- The default overload `end(r)` (end.h lines 40-46): returns `r.end()`. -/
def rangeEnd {ι : Type} (r : RangeModel ι) : ι := r.endIt

/-- The built-in-array overloads of `end` (end.h lines 50-55 for mutable
arrays, lines 60-65 for const arrays): an array of known bound `sz` whose
first element sits at address `a` yields the pointer `a + sz`, one past the
last element.  `isConst` selects which of the two (identical) overloads is
called. -/
def arrayEnd (isConst : Bool) (a sz : Nat) : Nat :=
  if isConst then a + sz else a + sz

/-- C10: for every built-in array of bound `sz` at base address `a`, const
or non-const, `thrust::experimental::end` returns `a + sz`, one past the
last element; for every range type with an `end()` member it returns
`r.end()`. -/
theorem end_overloads (ι : Type) (r : RangeModel ι) (isConst : Bool) (a sz : Nat) :
    arrayEnd isConst a sz = a + sz ∧ rangeEnd r = r.endIt := by
  constructor
  · unfold arrayEnd
    cases isConst <;> rfl
  · rfl
